import Mathlib

/-!
Verification of the Curl ternary sponge engine (`src/pow/curl.rs`) and of the
wasm storage adapter (`sdk/src/wallet/storage/adapter/wasm.rs`).

The fixed-size `i8` arrays of the engine are embedded as functions from
positions (`Nat`) to values (`Int`); only positions below `STATE_LENGTH` are
ever read or written.  Fallible operations (array indexing that can go out of
bounds, `clone_from_slice` on slices of different lengths) are embedded in
`Option`, `none` modelling a Rust panic.  `i8` arithmetic wraps (two's
complement), as the release build does.
-/

/-- Modelled from the spec: the block length B (`HASH_LENGTH` in `sponge.rs`,
which is not among the sources at hand) is the fixed constant 243. -/
def HASH_LENGTH : Nat := 243

/-- `STATE_LENGTH = 3 * HASH_LENGTH` from `curl.rs`. -/
def STATE_LENGTH : Nat := 3 * HASH_LENGTH

/-- The fixed truth table `TRUTH_TABLE` from `curl.rs`. -/
def TRUTH_TABLE : List Int := [1, 0, -1, 2, 1, -1, 0, 2, -1, 1, 0]

/-- Two's-complement wraparound to the `i8` range. -/
def wrap8 (x : Int) : Int := (x + 128) % 256 - 128

/-- Rust `x << 2` on `i8`: the low eight bits of `x * 4`. -/
def shl2 (x : Int) : Int := wrap8 (x * 4)

/-- Rust `x as usize` applied to an `i8` value. -/
def usizeOfI8 (x : Int) : Nat := (x % (2 ^ 64)).toNat

/-- The `truth_index` computed in `transform`:
`(scratchpad[prev] + (scratchpad[j] << 2) + 5) as usize`,
with wrapping `i8` additions. -/
def truthIndex (a b : Int) : Nat := usizeOfI8 (wrap8 (wrap8 (a + shl2 b) + 5))

/-- A valid trit value. -/
def IsTrit (x : Int) : Prop := x = -1 ∨ x = 0 ∨ x = 1

instance (x : Int) : Decidable (IsTrit x) := by
  unfold IsTrit
  infer_instance

/-- The Curl engine from `curl.rs`. -/
structure Curl where
  number_of_rounds : Nat
  scratchpad : Nat → Int
  state : Nat → Int

/-- `Default for Curl` from `curl.rs`: 81 rounds, all-zero buffers. -/
def Curl.default : Curl :=
  { number_of_rounds := 81, scratchpad := fun _ => 0, state := fun _ => 0 }

/-- Modelled from the spec: the mode selector (`Mode` in `sponge.rs`, not among
the sources at hand) has the two supported identifiers CURLP27 and CURLP81 and a
further identifier reserved for an unrelated (Keccak-based) construction. -/
inductive Mode where
  | CURLP27
  | CURLP81
  | Kerl
deriving DecidableEq

/-- Modelled from the spec: the display name of a mode identifier. -/
def Mode.display : Mode → String
  | .CURLP27 => "CURLP27"
  | .CURLP81 => "CURLP81"
  | .Kerl => "Kerl"

/-- `Curl::new` from `curl.rs`: starts from `Curl::default`, overwrites the
round count for the two supported modes and fails on any other mode. -/
def Curl.new (mode : Mode) : Except String Curl :=
  match mode with
  | .CURLP27 => .ok { Curl.default with number_of_rounds := 27 }
  | .CURLP81 => .ok { Curl.default with number_of_rounds := 81 }
  | a => .error ("Invalid mode: " ++ a.display)

/-- Modelled from the spec: `array_copy` (from `utils/converter.rs`, not among
the sources at hand) copies `length` entries of `src` starting at `srcPos` into
`dst` starting at `destPos`, leaving the rest of `dst` unchanged. -/
def array_copy (src : Nat → Int) (srcPos : Nat) (dst : Nat → Int) (destPos : Nat)
    (length : Nat) : Nat → Int :=
  fun i => if destPos ≤ i ∧ i < destPos + length then src (srcPos + (i - destPos)) else dst i

/-- One step of the scratchpad cursor in `transform`:
`if j < 365 then j += 364 else j -= 365`. -/
def curlStep (j : Nat) : Nat := if j < 365 then j + 364 else j - 365

/-- Pointwise array write (`state[i] = v`). -/
def upd (f : Nat → Int) (i : Nat) (v : Int) : Nat → Int := fun k => if k = i then v else f k

/-- The inner loop of one round of `transform`: for each listed position, record
the cursor, step it, look the two scratch values up in the truth table (array
indexing is fallible, as in the source) and write the entry into the state. -/
def transformPositions (scratch : Nat → Int) :
    List Nat → (Nat → Int) → Nat → Option ((Nat → Int) × Nat)
  | [], st, j => some (st, j)
  | i :: rest, st, j =>
    match TRUTH_TABLE[truthIndex (scratch j) (scratch (curlStep j))]? with
    | some v => transformPositions scratch rest (upd st i v) (curlStep j)
    | none => none

/-- The outer loop of `transform`: each round snapshots the state into the
scratchpad (`array_copy`) and then rewrites every position from that snapshot;
the cursor is initialized once, before all rounds, and threaded through. -/
def transformRounds : Nat → Curl → Nat → Option (Curl × Nat)
  | 0, c, j => some (c, j)
  | n + 1, c, j =>
    let scr := array_copy c.state 0 c.scratchpad 0 STATE_LENGTH
    match transformPositions scr (List.range STATE_LENGTH) c.state j with
    | some (st, j') => transformRounds n { c with scratchpad := scr, state := st } j'
    | none => none

/-- `Curl::transform` from `curl.rs`: `scratchpad_index` starts at 0, then
`number_of_rounds` rounds run. -/
def Curl.transform (c : Curl) : Option Curl :=
  (transformRounds c.number_of_rounds c 0).map Prod.fst

/-- The per-position substitution at spec level: the truth-table entry at index
`scratch[j_prev] + 4 * scratch[j] + 5`. -/
def substitute (a b : Int) : Int := TRUTH_TABLE.getD (a + 4 * b + 5).toNat 0

/-- One round as a pure snapshot-then-rewrite map: every new entry below
`STATE_LENGTH` is a function of the previous round's complete state only, read
at the two cursor positions for that index. -/
def pureRound (s : Nat → Int) : Nat → Int :=
  fun i =>
    if i < STATE_LENGTH then substitute (s (364 * i % 729)) (s (364 * (i + 1) % 729)) else s i

/-- Rust `slice::chunks n` (for `0 < n`): all chunks have length `n` except
possibly the last, shorter one. -/
def chunksOf (n : Nat) : List α → List (List α)
  | [] => []
  | a :: l => (a :: l).take n :: chunksOf n (l.drop (n - 1))
termination_by l => l.length
decreasing_by
  simp only [List.length_drop, List.length_cons]
  omega

/-- Writing one absorbed chunk over `state[0..HASH_LENGTH]`
(`self.state[0..HASH_LENGTH].clone_from_slice(chunk)`). -/
def writeChunk (s : Nat → Int) (chunk : List Int) : Nat → Int :=
  fun i => if i < HASH_LENGTH then chunk.getD i 0 else s i

/-- The chunk loop of `Sponge::absorb` for `Curl`: each chunk is copied over
`state[0..HASH_LENGTH]` (`clone_from_slice` panics unless the chunk has exactly
`HASH_LENGTH` entries) and one full transform runs before the next chunk. -/
def absorbLoop (c : Curl) : List (List Int) → Option Curl
  | [] => some c
  | chunk :: rest =>
    if chunk.length = HASH_LENGTH then
      match Curl.transform { c with state := writeChunk c.state chunk } with
      | some c1 => absorbLoop c1 rest
      | none => none
    else none

/-- `Curl::absorb`: the resulting engine (`none` models a panic) together with
the contents of the input slice when the call returns; the loop only ever reads
the chunks of the input, so the final slice contents are their concatenation. -/
def Curl.absorb (c : Curl) (trits : List Int) : Option Curl × List Int :=
  (absorbLoop c (chunksOf HASH_LENGTH trits), (chunksOf HASH_LENGTH trits).flatten)

/-- The `chunks_mut` loop of `Curl::squeeze`: every chunk of the output slice is
overwritten with `state[0..HASH_LENGTH]` (`clone_from_slice` panics unless the
chunk has exactly `HASH_LENGTH` entries, which fails for a short final chunk)
followed by a transform. -/
def squeezeLoop (c : Curl) : List Int → Option (Curl × List Int)
  | [] => some (c, [])
  | a :: out =>
    if ((a :: out).take HASH_LENGTH).length = HASH_LENGTH then
      match Curl.transform c with
      | some c1 =>
        match squeezeLoop c1 (out.drop (HASH_LENGTH - 1)) with
        | some (c2, rest) => some (c2, (List.range HASH_LENGTH).map c.state ++ rest)
        | none => none
      | none => none
    else none
termination_by l => l.length
decreasing_by
  simp only [List.length_drop, List.length_cons]
  omega

/-- `Curl::squeeze` from `curl.rs`: returns the engine and the contents of the
output slice (`none` models a panic).  After the chunk loop, the final partial
slice is copied and, for a length that is not a multiple of `HASH_LENGTH`, one
more transform runs. -/
def Curl.squeeze (c : Curl) (out : List Int) : Option (Curl × List Int) :=
  let trit_length := out.length
  let hash_length := trit_length / HASH_LENGTH
  match squeezeLoop c out with
  | none => none
  | some (c1, out1) =>
    let last := trit_length - hash_length * HASH_LENGTH
    let out2 := out1.take (trit_length - last) ++ (List.range last).map c1.state
    if trit_length % HASH_LENGTH ≠ 0 then (Curl.transform c1).map fun c2 => (c2, out2)
    else some (c1, out2)

/-- `Sponge::reset` for `Curl` from `curl.rs`: only the state array is zeroed. -/
def Curl.reset (c : Curl) : Curl := { c with state := fun _ => 0 }

/-- An absorb or squeeze call, for quantifying over call sequences. -/
inductive SpongeOp where
  | absorbOp (trits : List Int)
  | squeezeOp (out : List Int)

/-- Run one sponge call on an engine. -/
def runOp (c : Curl) : SpongeOp → Option Curl
  | .absorbOp trits => (c.absorb trits).1
  | .squeezeOp out => (c.squeeze out).map Prod.fst

/-- Run a sequence of sponge calls on an engine. -/
def runOps (c : Curl) : List SpongeOp → Option Curl
  | [] => some c
  | op :: ops =>
    match runOp c op with
    | some c1 => runOps c1 ops
    | none => none

/-- The specification-level effect of one absorbed chunk: overwrite
`state[0..HASH_LENGTH]` with the chunk, leave `state[HASH_LENGTH..]` unchanged,
then run all `r` rounds of the pure snapshot transform. -/
def specAbsorbStep (r : Nat) (s : Nat → Int) (ch : List Int) : Nat → Int :=
  pureRound^[r] (writeChunk s ch)

/-- UTF-8 encoding of one Unicode scalar value (`String::into_bytes` emits this
for every character of the stored string). -/
def utf8EncodeChar (c : Nat) : List Nat :=
  if c ≤ 0x7F then [c]
  else if c ≤ 0x7FF then [0xC0 + c / 0x40, 0x80 + c % 0x40]
  else if c ≤ 0xFFFF then [0xE0 + c / 0x1000, 0x80 + c / 0x40 % 0x40, 0x80 + c % 0x40]
  else [0xF0 + c / 0x40000, 0x80 + c / 0x1000 % 0x40, 0x80 + c / 0x40 % 0x40, 0x80 + c % 0x40]

/-- UTF-8 encoding of a sequence of scalar values (`String::into_bytes`). -/
def utf8Encode (cs : List Nat) : List Nat := (cs.map utf8EncodeChar).flatten

/-- A Unicode scalar value: a code point that is not a surrogate. -/
def UnicodeScalar (c : Nat) : Prop := c < 0x110000 ∧ ¬(0xD800 ≤ c ∧ c ≤ 0xDFFF)

instance (c : Nat) : Decidable (UnicodeScalar c) := by
  unfold UnicodeScalar
  infer_instance

/-- Admissible second byte of a three-byte UTF-8 sequence, per first byte
(Rust `core::str` validation). -/
def utf8Second3 (b0 b1 : Nat) : Prop :=
  (b0 = 0xE0 ∧ 0xA0 ≤ b1 ∧ b1 ≤ 0xBF) ∨ (0xE1 ≤ b0 ∧ b0 ≤ 0xEC ∧ 0x80 ≤ b1 ∧ b1 ≤ 0xBF) ∨
    (b0 = 0xED ∧ 0x80 ≤ b1 ∧ b1 ≤ 0x9F) ∨ (0xEE ≤ b0 ∧ b0 ≤ 0xEF ∧ 0x80 ≤ b1 ∧ b1 ≤ 0xBF)

instance (b0 b1 : Nat) : Decidable (utf8Second3 b0 b1) := by
  unfold utf8Second3
  infer_instance

/-- Admissible second byte of a four-byte UTF-8 sequence, per first byte
(Rust `core::str` validation). -/
def utf8Second4 (b0 b1 : Nat) : Prop :=
  (b0 = 0xF0 ∧ 0x90 ≤ b1 ∧ b1 ≤ 0xBF) ∨ (0xF1 ≤ b0 ∧ b0 ≤ 0xF3 ∧ 0x80 ≤ b1 ∧ b1 ≤ 0xBF) ∨
    (b0 = 0xF4 ∧ 0x80 ≤ b1 ∧ b1 ≤ 0x8F)

instance (b0 b1 : Nat) : Decidable (utf8Second4 b0 b1) := by
  unfold utf8Second4
  infer_instance

/-- Rust `String::from_utf8_lossy` as a map from bytes to the scalar values of
the resulting string: well-formed sequences decode to their code point, and
each maximal subpart of an ill-formed sequence is replaced by U+FFFD. -/
def utf8DecodeLossy : List Nat → List Nat
  | [] => []
  | b0 :: rest =>
    if b0 ≤ 0x7F then b0 :: utf8DecodeLossy rest
    else if 0xC2 ≤ b0 ∧ b0 ≤ 0xDF then
      match rest with
      | [] => [0xFFFD]
      | b1 :: rest1 =>
        if 0x80 ≤ b1 ∧ b1 ≤ 0xBF then
          ((b0 - 0xC0) * 0x40 + (b1 - 0x80)) :: utf8DecodeLossy rest1
        else 0xFFFD :: utf8DecodeLossy (b1 :: rest1)
    else if 0xE0 ≤ b0 ∧ b0 ≤ 0xEF then
      match rest with
      | [] => [0xFFFD]
      | b1 :: rest1 =>
        if utf8Second3 b0 b1 then
          match rest1 with
          | [] => [0xFFFD]
          | b2 :: rest2 =>
            if 0x80 ≤ b2 ∧ b2 ≤ 0xBF then
              ((b0 - 0xE0) * 0x1000 + (b1 - 0x80) * 0x40 + (b2 - 0x80)) :: utf8DecodeLossy rest2
            else 0xFFFD :: utf8DecodeLossy (b2 :: rest2)
        else 0xFFFD :: utf8DecodeLossy (b1 :: rest1)
    else if 0xF0 ≤ b0 ∧ b0 ≤ 0xF4 then
      match rest with
      | [] => [0xFFFD]
      | b1 :: rest1 =>
        if utf8Second4 b0 b1 then
          match rest1 with
          | [] => [0xFFFD]
          | b2 :: rest2 =>
            if 0x80 ≤ b2 ∧ b2 ≤ 0xBF then
              match rest2 with
              | [] => [0xFFFD]
              | b3 :: rest3 =>
                if 0x80 ≤ b3 ∧ b3 ≤ 0xBF then
                  ((b0 - 0xF0) * 0x40000 + (b1 - 0x80) * 0x1000 + (b2 - 0x80) * 0x40 +
                    (b3 - 0x80)) :: utf8DecodeLossy rest3
                else 0xFFFD :: utf8DecodeLossy (b3 :: rest3)
            else 0xFFFD :: utf8DecodeLossy (b2 :: rest2)
        else 0xFFFD :: utf8DecodeLossy (b1 :: rest1)
    else 0xFFFD :: utf8DecodeLossy rest

/-- A byte sequence is valid UTF-8 when it is the encoding of a sequence of
Unicode scalar values. -/
inductive Utf8Valid : List Nat → Prop
  | nil : Utf8Valid []
  | cons (c : Nat) (bs : List Nat) : UnicodeScalar c → Utf8Valid bs →
      Utf8Valid (utf8EncodeChar c ++ bs)

/-- The browser-provided `window.localStorage`, modelled as a map from keys to
stored strings (each a list of Unicode scalar values). -/
def LocalStorage := String → Option (List Nat)

/-- `WasmAdapter::format_key` from `wasm.rs`: prepend the adapter's key prefix
and a dash. -/
def format_key (keyPfx key : String) : String := keyPfx ++ "-" ++ key

/-- `StorageAdapter::set_bytes` for `WasmAdapter` from `wasm.rs`: the record's
bytes pass through `String::from_utf8_lossy` and the resulting string is stored
under the formatted key. -/
def set_bytes (st : LocalStorage) (keyPfx key : String) (record : List Nat) : LocalStorage :=
  fun k => if k = format_key keyPfx key then some (utf8DecodeLossy record) else st k

/-- `StorageAdapter::get_bytes` for `WasmAdapter` from `wasm.rs`: the stored
string under the formatted key, if any, converted to its UTF-8 bytes by
`String::into_bytes`. -/
def get_bytes (st : LocalStorage) (keyPfx key : String) : Option (List Nat) :=
  (st (format_key keyPfx key)).map utf8Encode

theorem curlStep_mod (j : Nat) (hj : j < 729) : curlStep j = (j + 364) % 729 := by
  unfold curlStep
  split <;> omega

theorem curlStep_lt (j : Nat) (hj : j < 729) : curlStep j < 729 := by
  unfold curlStep
  split <;> omega

theorem curlIter_mod (k j : Nat) (hj : j < 729) : curlStep^[k] j = (j + 364 * k) % 729 := by
  induction k generalizing j with
  | zero => simpa using (Nat.mod_eq_of_lt hj).symm
  | succ n ih =>
    rw [Function.iterate_succ_apply, ih (curlStep j) (curlStep_lt j hj)]
    unfold curlStep
    split <;> omega

theorem curlIter_lt (k j : Nat) (hj : j < 729) : curlStep^[k] j < 729 := by
  rw [curlIter_mod k j hj]
  omega

theorem curlIter_zero_mod (k : Nat) : curlStep^[k] 0 = 364 * k % 729 := by
  simpa using curlIter_mod k 0 (by norm_num)

theorem curlIter_cycle : curlStep^[729] 0 = 0 := by
  rw [curlIter_zero_mod]

theorem curlIter_inj (k1 k2 : Nat) (h1 : k1 < 729) (h2 : k2 < 729)
    (h : curlStep^[k1] 0 = curlStep^[k2] 0) : k1 = k2 := by
  rw [curlIter_zero_mod, curlIter_zero_mod] at h
  have hco : Nat.gcd 729 364 = 1 := by norm_num
  have hmod : 364 * k1 ≡ 364 * k2 [MOD 729] := h
  have hcan : k1 ≡ k2 [MOD 729] := Nat.ModEq.cancel_left_of_coprime hco hmod
  have h3 : k1 % 729 = k2 % 729 := hcan
  omega

theorem curlIter_surj (p : Nat) (hp : p < 729) : ∃ k, k < 729 ∧ curlStep^[k] 0 = p := by
  refine ⟨727 * p % 729, by omega, ?_⟩
  rw [curlIter_zero_mod]
  have h1 : 364 * (727 * p % 729) ≡ 364 * (727 * p) [MOD 729] :=
    Nat.ModEq.mul_left 364 (Nat.mod_modEq (727 * p) 729)
  have h2 : 364 * 727 ≡ 1 [MOD 729] := by decide
  have h3 : 364 * (727 * p) ≡ 1 * p [MOD 729] := by
    have := Nat.ModEq.mul_right p h2
    calc 364 * (727 * p) = 364 * 727 * p := by ring
    _ ≡ 1 * p [MOD 729] := this
  have h4 : 364 * (727 * p % 729) ≡ p [MOD 729] := by
    simpa using h1.trans h3
  have h5 : 364 * (727 * p % 729) % 729 = p % 729 := h4
  omega

theorem shl2_trit (x : Int) (hx : IsTrit x) : shl2 x = 4 * x := by
  rcases hx with h | h | h <;> subst h <;> decide

theorem truthIndex_trit (a b : Int) (ha : IsTrit a) (hb : IsTrit b) :
    truthIndex a b = (a + 4 * b + 5).toNat := by
  rcases ha with h | h | h <;> subst h <;> rcases hb with h | h | h <;> subst h <;> decide

theorem truthIndex_allowed (a b : Int) (ha : IsTrit a) (hb : IsTrit b) :
    truthIndex a b ∈ ([0, 1, 2, 4, 5, 6, 8, 9, 10] : List Nat) := by
  rcases ha with h | h | h <;> subst h <;> rcases hb with h | h | h <;> subst h <;> decide

theorem truth_lookup (a b : Int) (ha : IsTrit a) (hb : IsTrit b) :
    TRUTH_TABLE[truthIndex a b]? = some (substitute a b) := by
  rcases ha with h | h | h <;> subst h <;> rcases hb with h | h | h <;> subst h <;> decide

theorem substitute_trit (a b : Int) (ha : IsTrit a) (hb : IsTrit b) :
    IsTrit (substitute a b) := by
  rcases ha with h | h | h <;> subst h <;> rcases hb with h | h | h <;> subst h <;> decide

theorem transformPositions_spec (scratch : Nat → Int)
    (hs : ∀ p, p < 729 → IsTrit (scratch p)) :
    ∀ (n a : Nat) (s0 : Nat → Int) (j0 : Nat), j0 < 729 →
      transformPositions scratch (List.range' a n) s0 j0 =
        some (fun k => if a ≤ k ∧ k < a + n then
                substitute (scratch (curlStep^[k - a] j0)) (scratch (curlStep^[k - a + 1] j0))
              else s0 k,
              curlStep^[n] j0) := by
  intro n
  induction n with
  | zero =>
    intro a s0 j0 hj
    have hfun : (fun k => if a ≤ k ∧ k < a + 0 then
        substitute (scratch (curlStep^[k - a] j0)) (scratch (curlStep^[k - a + 1] j0))
        else s0 k) = s0 := by
      funext k
      rw [if_neg (by omega)]
    have h0 : transformPositions scratch (List.range' a 0) s0 j0 = some (s0, j0) := rfl
    rw [h0, hfun, Function.iterate_zero_apply]
  | succ n ih =>
    intro a s0 j0 hj
    rw [List.range'_succ]
    have hlook := truth_lookup (scratch j0) (scratch (curlStep j0))
      (hs j0 hj) (hs (curlStep j0) (curlStep_lt j0 hj))
    simp only [transformPositions, hlook]
    rw [ih (a + 1) (upd s0 a (substitute (scratch j0) (scratch (curlStep j0))))
      (curlStep j0) (curlStep_lt j0 hj)]
    have hiter : ∀ m, curlStep^[m] (curlStep j0) = curlStep^[m + 1] j0 := fun m =>
      (Function.iterate_succ_apply curlStep m j0).symm
    have hfun : (fun k => if a + 1 ≤ k ∧ k < a + 1 + n then
        substitute (scratch (curlStep^[k - (a + 1)] (curlStep j0)))
          (scratch (curlStep^[k - (a + 1) + 1] (curlStep j0)))
        else upd s0 a (substitute (scratch j0) (scratch (curlStep j0))) k) =
        (fun k => if a ≤ k ∧ k < a + (n + 1) then
          substitute (scratch (curlStep^[k - a] j0)) (scratch (curlStep^[k - a + 1] j0))
          else s0 k) := by
      funext k
      by_cases hk1 : a + 1 ≤ k ∧ k < a + 1 + n
      · rw [if_pos hk1, if_pos (by omega), hiter, hiter]
        have e1 : k - (a + 1) + 1 = k - a := by omega
        rw [e1]
      · by_cases hk2 : k = a
        · subst hk2
          rw [if_neg hk1, if_pos (by omega)]
          simp [upd, Nat.sub_self]
        · rw [if_neg hk1, if_neg (by omega)]
          simp [upd, hk2]
    rw [hfun, hiter]

theorem STATE_LENGTH_eq : STATE_LENGTH = 729 := by
  norm_num [STATE_LENGTH, HASH_LENGTH]

theorem transformPositions_range (scratch : Nat → Int)
    (hs : ∀ p, p < 729 → IsTrit (scratch p)) (s0 : Nat → Int) (j0 : Nat) (hj : j0 < 729) :
    transformPositions scratch (List.range STATE_LENGTH) s0 j0 =
      some (fun k => if k < 729 then
              substitute (scratch (curlStep^[k] j0)) (scratch (curlStep^[k + 1] j0))
            else s0 k,
            curlStep^[729] j0) := by
  rw [STATE_LENGTH_eq, List.range_eq_range',
    transformPositions_spec scratch hs 729 0 s0 j0 hj]
  have hfun : (fun k => if 0 ≤ k ∧ k < 0 + 729 then
      substitute (scratch (curlStep^[k - 0] j0)) (scratch (curlStep^[k - 0 + 1] j0))
      else s0 k) =
      (fun k => if k < 729 then
        substitute (scratch (curlStep^[k] j0)) (scratch (curlStep^[k + 1] j0))
        else s0 k) := by
    funext k
    simp only [Nat.sub_zero]
    by_cases hk : k < 729
    · rw [if_pos ⟨Nat.zero_le k, by omega⟩, if_pos hk]
    · rw [if_neg (by omega), if_neg hk]
  rw [hfun]

theorem array_copy_lt (s d : Nat → Int) (i : Nat) (hi : i < 729) :
    array_copy s 0 d 0 STATE_LENGTH i = s i := by
  unfold array_copy
  rw [if_pos ⟨Nat.zero_le i, by rw [STATE_LENGTH_eq]; omega⟩]
  norm_num

theorem round_pure (s d : Nat → Int) (hs : ∀ p, p < 729 → IsTrit (s p)) :
    transformPositions (array_copy s 0 d 0 STATE_LENGTH) (List.range STATE_LENGTH) s 0 =
      some (pureRound s, 0) := by
  have hveq : ∀ p, p < 729 → array_copy s 0 d 0 STATE_LENGTH p = s p := fun p hp =>
    array_copy_lt s d p hp
  have hv : ∀ p, p < 729 → IsTrit (array_copy s 0 d 0 STATE_LENGTH p) := fun p hp => by
    rw [hveq p hp]
    exact hs p hp
  rw [transformPositions_range (array_copy s 0 d 0 STATE_LENGTH) hv s 0 (by norm_num),
    curlIter_cycle]
  have hfun : (fun k => if k < 729 then
      substitute (array_copy s 0 d 0 STATE_LENGTH (curlStep^[k] 0))
        (array_copy s 0 d 0 STATE_LENGTH (curlStep^[k + 1] 0))
      else s k) = pureRound s := by
    funext k
    unfold pureRound
    by_cases hk : k < 729
    · rw [if_pos hk, if_pos (by rw [STATE_LENGTH_eq]; omega)]
      rw [hveq _ (curlIter_lt k 0 (by norm_num)), hveq _ (curlIter_lt (k + 1) 0 (by norm_num))]
      rw [curlIter_zero_mod, curlIter_zero_mod]
    · rw [if_neg hk, if_neg (by rw [STATE_LENGTH_eq]; omega)]
  rw [hfun]

theorem pureRound_valid (s : Nat → Int) (hs : ∀ p, p < 729 → IsTrit (s p)) :
    ∀ p, p < 729 → IsTrit (pureRound s p) := by
  intro p hp
  unfold pureRound
  rw [if_pos (by rw [STATE_LENGTH_eq]; omega)]
  exact substitute_trit _ _ (hs _ (by omega)) (hs _ (by omega))

theorem pureRound_iter_valid (s : Nat → Int) (hs : ∀ p, p < 729 → IsTrit (s p)) (n : Nat) :
    ∀ p, p < 729 → IsTrit (pureRound^[n] s p) := by
  induction n with
  | zero => simpa using hs
  | succ m ih =>
    rw [Function.iterate_succ_apply']
    exact pureRound_valid _ ih

set_option maxRecDepth 4000 in
theorem transformRounds_succ (n : Nat) (c : Curl) (j : Nat) :
    transformRounds (n + 1) c j =
      match transformPositions (array_copy c.state 0 c.scratchpad 0 STATE_LENGTH)
        (List.range STATE_LENGTH) c.state j with
      | some (st, j') => transformRounds n
          ⟨c.number_of_rounds, array_copy c.state 0 c.scratchpad 0 STATE_LENGTH, st⟩ j'
      | none => none := rfl

theorem transformRounds_pure (n : Nat) : ∀ (c : Curl), (∀ p, p < 729 → IsTrit (c.state p)) →
    ∃ scr, transformRounds n c 0 =
      some (⟨c.number_of_rounds, scr, pureRound^[n] c.state⟩, 0) := by
  induction n with
  | zero =>
    intro c hc
    exact ⟨c.scratchpad, rfl⟩
  | succ n ih =>
    intro c hc
    obtain ⟨scr2, hrec⟩ := ih
      ⟨c.number_of_rounds, array_copy c.state 0 c.scratchpad 0 STATE_LENGTH, pureRound c.state⟩
      (pureRound_valid c.state hc)
    refine ⟨scr2, ?_⟩
    rw [transformRounds_succ, round_pure c.state c.scratchpad hc]
    exact hrec

theorem transform_pure (c : Curl) (hc : ∀ p, p < 729 → IsTrit (c.state p)) :
    ∃ scr, Curl.transform c =
      some ⟨c.number_of_rounds, scr, pureRound^[c.number_of_rounds] c.state⟩ := by
  obtain ⟨scr, h⟩ := transformRounds_pure c.number_of_rounds c hc
  refine ⟨scr, ?_⟩
  unfold Curl.transform
  rw [h]
  rfl

theorem transform_valid (c : Curl) (hc : ∀ p, p < 729 → IsTrit (c.state p)) :
    ∃ c', Curl.transform c = some c' ∧ (∀ p, p < 729 → IsTrit (c'.state p)) ∧
      c'.number_of_rounds = c.number_of_rounds ∧
      c'.state = pureRound^[c.number_of_rounds] c.state := by
  obtain ⟨scr, h⟩ := transform_pure c hc
  exact ⟨_, h, pureRound_iter_valid c.state hc c.number_of_rounds, rfl, rfl⟩

theorem chunksOf_flatten_aux (n : Nat) (hn : 0 < n) :
    ∀ (m : Nat) (l : List Int), l.length = m → (chunksOf n l).flatten = l := by
  intro m
  induction m using Nat.strong_induction_on with
  | _ m ih =>
    intro l hlen
    cases l with
    | nil => simp [chunksOf]
    | cons a t =>
      have hlt : (t.drop (n - 1)).length < m := by
        simp only [List.length_drop]
        simp only [List.length_cons] at hlen
        omega
      have hrec := ih (t.drop (n - 1)).length hlt (t.drop (n - 1)) rfl
      simp only [chunksOf, List.flatten_cons, hrec]
      obtain ⟨k, rfl⟩ : ∃ k, n = k + 1 := ⟨n - 1, by omega⟩
      simp only [List.take_succ_cons, Nat.add_sub_cancel, List.cons_append,
        List.take_append_drop]

theorem chunksOf_flatten (n : Nat) (hn : 0 < n) (l : List Int) :
    (chunksOf n l).flatten = l :=
  chunksOf_flatten_aux n hn l.length l rfl

theorem chunksOf_full : ∀ (m : Nat) (l : List Int), l.length = 243 * m →
    (∀ ch ∈ chunksOf 243 l, ch.length = 243) ∧ (chunksOf 243 l).length = m := by
  intro m
  induction m with
  | zero =>
    intro l hl
    have : l = [] := List.eq_nil_of_length_eq_zero (by omega)
    subst this
    exact ⟨by simp [chunksOf], by simp [chunksOf]⟩
  | succ k ih =>
    intro l hl
    cases l with
    | nil => simp at hl
    | cons a t =>
      have hdrop : (t.drop 242).length = 243 * k := by
        simp only [List.length_drop]
        simp only [List.length_cons] at hl
        omega
      obtain ⟨ih1, ih2⟩ := ih (t.drop 242) hdrop
      have hunfold : chunksOf 243 (a :: t) = (a :: t).take 243 :: chunksOf 243 (t.drop 242) := by
        simp [chunksOf]
      constructor
      · intro ch hch
        rw [hunfold] at hch
        rcases List.mem_cons.mp hch with h | h
        · subst h
          simp only [List.length_take, List.length_cons]
          simp only [List.length_cons] at hl
          omega
        · exact ih1 ch h
      · rw [hunfold]
        simp [ih2]

theorem writeChunk_valid (s : Nat → Int) (ch : List Int) (hch : ∀ x ∈ ch, IsTrit x)
    (hlen : ch.length = HASH_LENGTH) (hs : ∀ p, p < 729 → IsTrit (s p)) :
    ∀ p, p < 729 → IsTrit (writeChunk s ch p) := by
  intro p hp
  unfold writeChunk
  split
  · next h =>
    have hpl : p < ch.length := by
      rw [hlen]
      exact h
    rw [List.getD_eq_getElem ch 0 hpl]
    exact hch _ (List.getElem_mem hpl)
  · next h => exact hs p hp

theorem transformRounds_roundsEq : ∀ (n : Nat) (c : Curl) (j : Nat) (r : Curl × Nat),
    transformRounds n c j = some r → r.1.number_of_rounds = c.number_of_rounds := by
  intro n
  induction n with
  | zero =>
    intro c j r h
    have h' : (c, j) = r := Option.some.inj h
    rw [← h']
  | succ n ih =>
    intro c j r h
    rw [transformRounds_succ] at h
    rcases htp : transformPositions (array_copy c.state 0 c.scratchpad 0 STATE_LENGTH)
      (List.range STATE_LENGTH) c.state j with _ | ⟨st, j'⟩
    · rw [htp] at h
      exact absurd h (by simp)
    · rw [htp] at h
      exact ih ⟨c.number_of_rounds, array_copy c.state 0 c.scratchpad 0 STATE_LENGTH, st⟩ j' r h

theorem transform_roundsEq (c c' : Curl) (h : Curl.transform c = some c') :
    c'.number_of_rounds = c.number_of_rounds := by
  unfold Curl.transform at h
  rcases htr : transformRounds c.number_of_rounds c 0 with _ | r
  · rw [htr] at h
    exact absurd h (by simp)
  · rw [htr] at h
    have : r.1 = c' := by
      simpa using h
    rw [← this]
    exact transformRounds_roundsEq c.number_of_rounds c 0 r htr

theorem HASH_LENGTH_eq : HASH_LENGTH = 243 := rfl

theorem absorbLoop_spec : ∀ (chs : List (List Int)) (c : Curl),
    (∀ ch ∈ chs, ch.length = HASH_LENGTH) → (∀ ch ∈ chs, ∀ x ∈ ch, IsTrit x) →
    (∀ p, p < 729 → IsTrit (c.state p)) →
    ∃ c', absorbLoop c chs = some c' ∧
      c'.state = chs.foldl (specAbsorbStep c.number_of_rounds) c.state ∧
      c'.number_of_rounds = c.number_of_rounds ∧
      (∀ p, p < 729 → IsTrit (c'.state p)) := by
  intro chs
  induction chs with
  | nil =>
    intro c _ _ hc
    exact ⟨c, rfl, rfl, rfl, hc⟩
  | cons ch rest ih =>
    intro c hlen htr hc
    have hwv : ∀ p, p < 729 → IsTrit (writeChunk c.state ch p) :=
      writeChunk_valid c.state ch (htr ch (List.mem_cons_self ch rest))
        (hlen ch (List.mem_cons_self ch rest)) hc
    obtain ⟨c1, ht, hv1, hr1, hst1⟩ :=
      transform_valid ⟨c.number_of_rounds, c.scratchpad, writeChunk c.state ch⟩ hwv
    have hstep : absorbLoop c (ch :: rest) =
        if ch.length = HASH_LENGTH then
          match Curl.transform ⟨c.number_of_rounds, c.scratchpad, writeChunk c.state ch⟩ with
          | some c1 => absorbLoop c1 rest
          | none => none
        else none := rfl
    rw [hstep, if_pos (hlen ch (List.mem_cons_self ch rest)), ht]
    obtain ⟨c', hrec, hstate, hrounds, hvalid⟩ := ih c1
      (fun ch2 h2 => hlen ch2 (List.mem_cons_of_mem ch h2))
      (fun ch2 h2 => htr ch2 (List.mem_cons_of_mem ch h2)) hv1
    have hr1' : c1.number_of_rounds = c.number_of_rounds := hr1
    have hst1' : c1.state = pureRound^[c.number_of_rounds] (writeChunk c.state ch) := hst1
    refine ⟨c', hrec, ?_, ?_, hvalid⟩
    · rw [hstate, hr1', hst1', List.foldl_cons]
      rfl
    · rw [hrounds, hr1']

theorem absorbLoop_roundsEq : ∀ (chs : List (List Int)) (c c' : Curl),
    absorbLoop c chs = some c' → c'.number_of_rounds = c.number_of_rounds := by
  intro chs
  induction chs with
  | nil =>
    intro c c' h
    cases Option.some.inj h
    rfl
  | cons ch rest ih =>
    intro c c' h
    have hstep : absorbLoop c (ch :: rest) =
        if ch.length = HASH_LENGTH then
          match Curl.transform ⟨c.number_of_rounds, c.scratchpad, writeChunk c.state ch⟩ with
          | some c1 => absorbLoop c1 rest
          | none => none
        else none := rfl
    rw [hstep] at h
    by_cases hl : ch.length = HASH_LENGTH
    · rw [if_pos hl] at h
      rcases htr : Curl.transform ⟨c.number_of_rounds, c.scratchpad, writeChunk c.state ch⟩
        with _ | c1
      · rw [htr] at h
        exact absurd h (by simp)
      · rw [htr] at h
        have h2 : c1.number_of_rounds = c.number_of_rounds :=
          transform_roundsEq ⟨c.number_of_rounds, c.scratchpad, writeChunk c.state ch⟩ c1 htr
        rw [ih c1 c' h, h2]
    · rw [if_neg hl] at h
      exact absurd h (by simp)

theorem squeezeLoop_roundsEq_aux : ∀ (m : Nat) (out : List Int), out.length = m →
    ∀ (c : Curl) (r : Curl × List Int), squeezeLoop c out = some r →
      r.1.number_of_rounds = c.number_of_rounds := by
  intro m
  induction m using Nat.strong_induction_on with
  | _ m ih =>
    intro out hlen c r h
    cases out with
    | nil =>
      simp only [squeezeLoop] at h
      cases Option.some.inj h
      rfl
    | cons a t =>
      by_cases hc : ((a :: t).take HASH_LENGTH).length = HASH_LENGTH
      · rcases htr : Curl.transform c with _ | c1
        · simp only [squeezeLoop, hc, eq_self_iff_true, if_true, htr] at h
          exact absurd h (by simp)
        · rcases hsq : squeezeLoop c1 (t.drop (HASH_LENGTH - 1)) with _ | r2
          · simp only [squeezeLoop, hc, eq_self_iff_true, if_true, htr, hsq] at h
            exact absurd h (by simp)
          · obtain ⟨c2, rest2⟩ := r2
            simp only [squeezeLoop, hc, eq_self_iff_true, if_true, htr, hsq,
              Option.some.injEq] at h
            have hlt : (t.drop (HASH_LENGTH - 1)).length < m := by
              simp only [List.length_drop]
              simp only [List.length_cons] at hlen
              omega
            have h1 := ih (t.drop (HASH_LENGTH - 1)).length hlt
              (t.drop (HASH_LENGTH - 1)) rfl c1 (c2, rest2) hsq
            have h2 := transform_roundsEq c c1 htr
            rw [← h]
            exact h1.trans h2
      · simp only [squeezeLoop] at h
        rw [if_neg hc] at h
        exact absurd h (by simp)

theorem squeezeLoop_roundsEq (out : List Int) (c : Curl) (r : Curl × List Int)
    (h : squeezeLoop c out = some r) : r.1.number_of_rounds = c.number_of_rounds :=
  squeezeLoop_roundsEq_aux out.length out rfl c r h

theorem squeeze_roundsEq (c : Curl) (out : List Int) (r : Curl × List Int)
    (h : Curl.squeeze c out = some r) : r.1.number_of_rounds = c.number_of_rounds := by
  rcases hsl : squeezeLoop c out with _ | r1
  · simp only [Curl.squeeze, hsl] at h
    exact absurd h (by simp)
  · obtain ⟨c1, out1⟩ := r1
    have hc1 : c1.number_of_rounds = c.number_of_rounds :=
      squeezeLoop_roundsEq out c (c1, out1) hsl
    by_cases hm : out.length % HASH_LENGTH ≠ 0
    · rcases htr : Curl.transform c1 with _ | c2
      · simp only [Curl.squeeze, hsl, htr, Option.map_none'] at h
        rw [if_pos hm] at h
        exact absurd h (by simp)
      · simp only [Curl.squeeze, hsl, htr, Option.map_some'] at h
        rw [if_pos hm] at h
        have h' := Option.some.inj h
        have h2 : c2.number_of_rounds = c1.number_of_rounds :=
          transform_roundsEq c1 c2 htr
        rw [← h']
        exact h2.trans hc1
    · simp only [Curl.squeeze, hsl] at h
      rw [if_neg hm] at h
      have h' := Option.some.inj h
      rw [← h']
      exact hc1

theorem runOp_roundsEq (c c' : Curl) (op : SpongeOp) (h : runOp c op = some c') :
    c'.number_of_rounds = c.number_of_rounds := by
  cases op with
  | absorbOp trits => exact absorbLoop_roundsEq (chunksOf HASH_LENGTH trits) c c' h
  | squeezeOp out =>
    have h' : (Curl.squeeze c out).map Prod.fst = some c' := h
    rcases hsq : Curl.squeeze c out with _ | r
    · rw [hsq] at h'
      exact absurd h' (by simp)
    · rw [hsq] at h'
      have : r.1 = c' := by simpa using h'
      rw [← this]
      exact squeeze_roundsEq c out r hsq

theorem runOps_roundsEq : ∀ (ops : List SpongeOp) (c c' : Curl),
    runOps c ops = some c' → c'.number_of_rounds = c.number_of_rounds := by
  intro ops
  induction ops with
  | nil =>
    intro c c' h
    cases Option.some.inj h
    rfl
  | cons op rest ih =>
    intro c c' h
    simp only [runOps] at h
    rcases hop : runOp c op with _ | c1
    · rw [hop] at h
      exact absurd h (by simp)
    · rw [hop] at h
      exact (ih c1 c' h).trans (runOp_roundsEq c c1 op hop)

theorem chunksOf_full_hash (m : Nat) (l : List Int) (hl : l.length = HASH_LENGTH * m) :
    (∀ ch ∈ chunksOf HASH_LENGTH l, ch.length = HASH_LENGTH) ∧
    (chunksOf HASH_LENGTH l).length = m := by
  rw [HASH_LENGTH_eq] at hl ⊢
  exact chunksOf_full m l hl

/-- C1: in every transform round, for every position, the new state entry is the
truth-table entry at index `scratch[j_prev] + 4 * scratch[j] + 5`, where
`j_prev` and `j` are the cursor values for that position; and the left shift by
two of an `i8` computes exactly the multiplication by 4 on every trit. -/
theorem round_formula (scratch s0 : Nat → Int) (j0 : Nat) (hj : j0 < 729)
    (hv : ∀ p, p < 729 → IsTrit (scratch p)) :
    (∃ st', transformPositions scratch (List.range STATE_LENGTH) s0 j0 =
        some (st', curlStep^[729] j0) ∧
      ∀ i, i < 729 → st' i =
        TRUTH_TABLE.getD
          (scratch (curlStep^[i] j0) + 4 * scratch (curlStep^[i + 1] j0) + 5).toNat 0) ∧
    (∀ x : Int, IsTrit x → shl2 x = 4 * x) := by
  constructor
  · refine ⟨_, transformPositions_range scratch hv s0 j0 hj, ?_⟩
    intro i hi
    show (if i < 729 then
        substitute (scratch (curlStep^[i] j0)) (scratch (curlStep^[i + 1] j0))
      else s0 i) =
      TRUTH_TABLE.getD
        (scratch (curlStep^[i] j0) + 4 * scratch (curlStep^[i + 1] j0) + 5).toNat 0
    rw [if_pos hi]
    rfl
  · exact fun x hx => shl2_trit x hx

theorem round_formula_witness :
    (0 : Nat) < 729 ∧
    ((∃ st', transformPositions (fun _ => 0) (List.range STATE_LENGTH) (fun _ => 0) 0 =
        some (st', curlStep^[729] 0) ∧
      ∀ i, i < 729 → st' i = TRUTH_TABLE.getD ((0 : Int) + 4 * 0 + 5).toNat 0) ∧
    (∀ x : Int, IsTrit x → shl2 x = 4 * x)) :=
  ⟨by norm_num, round_formula (fun _ => 0) (fun _ => 0) 0 (by norm_num)
    (fun p _ => Or.inr (Or.inl rfl))⟩

/-- C2: the cursor branch computes `(j + 364) % 729` for every `j` in `0..729`;
starting from 0, the 729 successive `j_prev` values of one round visit every
position exactly once and the cursor returns to 0 for the next round. -/
theorem cursor_equiv :
    (∀ j, j < 729 → curlStep j = (j + 364) % 729) ∧
    (∀ k1, k1 < 729 → ∀ k2, k2 < 729 → curlStep^[k1] 0 = curlStep^[k2] 0 → k1 = k2) ∧
    (∀ p, p < 729 → ∃ k, k < 729 ∧ curlStep^[k] 0 = p) ∧
    curlStep^[729] 0 = 0 :=
  ⟨curlStep_mod, fun k1 h1 k2 h2 h => curlIter_inj k1 k2 h1 h2 h, curlIter_surj, curlIter_cycle⟩

theorem cursor_equiv_witness :
    (700 : Nat) < 729 ∧ curlStep 700 = (700 + 364) % 729 ∧ (5 : Nat) < 729 ∧
    (∃ k, k < 729 ∧ curlStep^[k] 0 = 5) :=
  ⟨by norm_num, cursor_equiv.1 700 (by norm_num), by norm_num,
    cursor_equiv.2.2.1 5 (by norm_num)⟩

/-- C3: one transform call on a valid-trit state succeeds and its result is the
`number_of_rounds`-fold iterate of the pure snapshot round `pureRound`, whose
every output entry reads only the complete state of the previous round. -/
theorem transform_snapshot (c : Curl) (hc : ∀ p, p < 729 → IsTrit (c.state p)) :
    ∃ c', Curl.transform c = some c' ∧
      c'.state = pureRound^[c.number_of_rounds] c.state ∧
      c'.number_of_rounds = c.number_of_rounds := by
  obtain ⟨c', h, _, hr, hs⟩ := transform_valid c hc
  exact ⟨c', h, hs, hr⟩

theorem transform_snapshot_witness :
    (∀ p, p < 729 → IsTrit ((⟨27, fun _ => 0, fun _ => 0⟩ : Curl).state p)) ∧
    (∃ c', Curl.transform ⟨27, fun _ => 0, fun _ => 0⟩ = some c' ∧
      c'.state = pureRound^[27] (fun _ => 0) ∧ c'.number_of_rounds = 27) :=
  ⟨fun p _ => Or.inr (Or.inl rfl),
    transform_snapshot ⟨27, fun _ => 0, fun _ => 0⟩ (fun p _ => Or.inr (Or.inl rfl))⟩

/-- C4: for trit inputs the truth-table index stays in the allowed set (within
bounds, never 3 or 7, where the `2` entries sit), the substitution yields a
trit, and a transform on a valid-trit state succeeds with a valid-trit state. -/
theorem transform_preserves_trits :
    (∀ a b : Int, IsTrit a → IsTrit b →
      truthIndex a b ∈ ([0, 1, 2, 4, 5, 6, 8, 9, 10] : List Nat) ∧
      truthIndex a b ≤ 10 ∧ truthIndex a b ≠ 3 ∧ truthIndex a b ≠ 7 ∧
      IsTrit (substitute a b)) ∧
    (∀ c : Curl, (∀ p, p < 729 → IsTrit (c.state p)) →
      ∃ c', Curl.transform c = some c' ∧ ∀ p, p < 729 → IsTrit (c'.state p)) := by
  constructor
  · intro a b ha hb
    refine ⟨truthIndex_allowed a b ha hb, ?_, ?_, ?_, substitute_trit a b ha hb⟩
    all_goals rcases ha with h | h | h <;> subst h <;>
      rcases hb with h | h | h <;> subst h <;> decide
  · intro c hc
    obtain ⟨c', h1, h2, _, _⟩ := transform_valid c hc
    exact ⟨c', h1, h2⟩

theorem transform_preserves_trits_witness :
    (IsTrit (-1) ∧ IsTrit 1 ∧
      truthIndex (-1) 1 ∈ ([0, 1, 2, 4, 5, 6, 8, 9, 10] : List Nat)) ∧
    ((∀ p, p < 729 → IsTrit ((0 : Int))) ∧
      ∃ c', Curl.transform ⟨81, fun _ => 0, fun _ => 0⟩ = some c' ∧
        ∀ p, p < 729 → IsTrit (c'.state p)) :=
  ⟨⟨by decide, by decide, (transform_preserves_trits.1 (-1) 1 (by decide) (by decide)).1⟩,
   ⟨fun _ _ => Or.inr (Or.inl rfl),
    transform_preserves_trits.2 ⟨81, fun _ => 0, fun _ => 0⟩
      (fun _ _ => Or.inr (Or.inl rfl))⟩⟩

/-- C6: absorbing an input whose length is a positive multiple of 243 splits it
into 243-trit chunks; every chunk overwrites exactly `state[0..243]` (positions
243..729 untouched at that step) and one full transform (all rounds) runs before
the next chunk, as witnessed by the chunked pure fold the result equals. -/
theorem absorb_chunks (c : Curl) (trits : List Int) (m : Nat) (hm : 0 < m)
    (hlen : trits.length = 243 * m) (htr : ∀ x ∈ trits, IsTrit x)
    (hc : ∀ p, p < 729 → IsTrit (c.state p)) :
    (∀ ch ∈ chunksOf HASH_LENGTH trits, ch.length = HASH_LENGTH) ∧
    (chunksOf HASH_LENGTH trits).length = m ∧
    (chunksOf HASH_LENGTH trits).flatten = trits ∧
    (∀ (s : Nat → Int) (ch : List Int),
      (∀ i, i < HASH_LENGTH → writeChunk s ch i = ch.getD i 0) ∧
      (∀ i, HASH_LENGTH ≤ i → writeChunk s ch i = s i)) ∧
    (∃ c', (Curl.absorb c trits).1 = some c' ∧
      c'.number_of_rounds = c.number_of_rounds ∧
      c'.state = (chunksOf HASH_LENGTH trits).foldl (specAbsorbStep c.number_of_rounds)
        c.state) := by
  have hlen' : trits.length = HASH_LENGTH * m := by
    rw [HASH_LENGTH_eq]
    exact hlen
  obtain ⟨h1, h2⟩ := chunksOf_full_hash m trits hlen'
  have hflat : (chunksOf HASH_LENGTH trits).flatten = trits :=
    chunksOf_flatten HASH_LENGTH (by norm_num [HASH_LENGTH]) trits
  have hwrite : ∀ (s : Nat → Int) (ch : List Int),
      (∀ i, i < HASH_LENGTH → writeChunk s ch i = ch.getD i 0) ∧
      (∀ i, HASH_LENGTH ≤ i → writeChunk s ch i = s i) := by
    intro s ch
    constructor
    · intro i hi
      unfold writeChunk
      rw [if_pos hi]
    · intro i hi
      unfold writeChunk
      rw [if_neg (by omega)]
  have htrch : ∀ ch ∈ chunksOf HASH_LENGTH trits, ∀ x ∈ ch, IsTrit x := by
    intro ch hch x hx
    refine htr x ?_
    rw [← hflat]
    exact List.mem_flatten.mpr ⟨ch, hch, hx⟩
  obtain ⟨c', hl1, hl2, hl3, _⟩ := absorbLoop_spec (chunksOf HASH_LENGTH trits) c h1 htrch hc
  exact ⟨h1, h2, hflat, hwrite, c', hl1, hl3, hl2⟩

theorem absorb_chunks_witness :
    (0 : Nat) < 1 ∧ (List.replicate 243 (0 : Int)).length = 243 * 1 ∧
    ((∀ ch ∈ chunksOf HASH_LENGTH (List.replicate 243 (0 : Int)), ch.length = HASH_LENGTH) ∧
      (chunksOf HASH_LENGTH (List.replicate 243 (0 : Int))).length = 1 ∧
      (chunksOf HASH_LENGTH (List.replicate 243 (0 : Int))).flatten = List.replicate 243 0 ∧
      (∀ (s : Nat → Int) (ch : List Int),
        (∀ i, i < HASH_LENGTH → writeChunk s ch i = ch.getD i 0) ∧
        (∀ i, HASH_LENGTH ≤ i → writeChunk s ch i = s i)) ∧
      (∃ c', (Curl.absorb ⟨81, fun _ => 0, fun _ => 0⟩ (List.replicate 243 0)).1 = some c' ∧
        c'.number_of_rounds = 81 ∧
        c'.state = (chunksOf HASH_LENGTH (List.replicate 243 0)).foldl (specAbsorbStep 81)
          (fun _ => 0))) :=
  ⟨by norm_num, by rw [List.length_replicate],
    absorb_chunks ⟨81, fun _ => 0, fun _ => 0⟩ (List.replicate 243 0) 1 (by norm_num)
      (by rw [List.length_replicate])
      (fun x hx => by rw [List.eq_of_mem_replicate hx]; decide)
      (fun _ _ => Or.inr (Or.inl rfl))⟩

/-- C7: resetting an engine reached from a freshly constructed one by any
sequence of absorb and squeeze calls yields exactly the state array of the
fresh engine of the same mode, with the round count unchanged. -/
theorem reset_fresh (mode : Mode) (c0 : Curl) (hnew : Curl.new mode = Except.ok c0)
    (ops : List SpongeOp) (c1 : Curl) (hops : runOps c0 ops = some c1) :
    (Curl.reset c1).state = c0.state ∧
    (Curl.reset c1).number_of_rounds = c0.number_of_rounds := by
  have hrounds := runOps_roundsEq ops c0 c1 hops
  cases mode with
  | CURLP27 =>
    obtain rfl := Except.ok.inj hnew
    exact ⟨rfl, hrounds⟩
  | CURLP81 =>
    obtain rfl := Except.ok.inj hnew
    exact ⟨rfl, hrounds⟩
  | Kerl => simp [Curl.new] at hnew

theorem reset_fresh_witness :
    Curl.new Mode.CURLP27 = Except.ok ⟨27, fun _ => 0, fun _ => 0⟩ ∧
    runOps ⟨27, fun _ => 0, fun _ => 0⟩ [] = some ⟨27, fun _ => 0, fun _ => 0⟩ ∧
    ((Curl.reset ⟨27, fun _ => 0, fun _ => 0⟩).state =
        (⟨27, fun _ => 0, fun _ => 0⟩ : Curl).state ∧
      (Curl.reset ⟨27, fun _ => 0, fun _ => 0⟩).number_of_rounds = 27) :=
  ⟨rfl, rfl, reset_fresh Mode.CURLP27 ⟨27, fun _ => 0, fun _ => 0⟩ rfl []
    ⟨27, fun _ => 0, fun _ => 0⟩ rfl⟩

/-- C8: construction succeeds exactly for the two supported identifiers, with
round counts 27 and 81, and fails for every other identifier with an error
naming it. -/
theorem new_modes :
    (∃ c, Curl.new Mode.CURLP27 = Except.ok c ∧ c.number_of_rounds = 27) ∧
    (∃ c, Curl.new Mode.CURLP81 = Except.ok c ∧ c.number_of_rounds = 81) ∧
    (∀ m : Mode, m ≠ Mode.CURLP27 → m ≠ Mode.CURLP81 →
      Curl.new m = Except.error ("Invalid mode: " ++ m.display)) := by
  refine ⟨⟨_, rfl, rfl⟩, ⟨_, rfl, rfl⟩, ?_⟩
  intro m h27 h81
  cases m with
  | CURLP27 => exact absurd rfl h27
  | CURLP81 => exact absurd rfl h81
  | Kerl => rfl

theorem new_modes_witness :
    Mode.Kerl ≠ Mode.CURLP27 ∧ Mode.Kerl ≠ Mode.CURLP81 ∧
    Curl.new Mode.Kerl = Except.error ("Invalid mode: " ++ Mode.Kerl.display) :=
  ⟨by decide, by decide, new_modes.2.2 Mode.Kerl (by decide) (by decide)⟩

/-- C9: absorb never modifies the input slice; after the call it holds exactly
the values it held before. -/
theorem absorb_preserves_input (c : Curl) (trits : List Int) :
    (Curl.absorb c trits).2 = trits :=
  chunksOf_flatten HASH_LENGTH (by norm_num [HASH_LENGTH]) trits

theorem squeeze_loop_none (c : Curl) (out : List Int) (h : squeezeLoop c out = none) :
    Curl.squeeze c out = none := by
  simp only [Curl.squeeze, h]

/-- C5 (failing evaluation): requesting 7 output trits makes `squeeze` panic:
`chunks_mut` yields a short final chunk and `clone_from_slice` from the full
243-entry state slice fails, so squeeze is not infallible for lengths that are
not multiples of 243. -/
theorem squeeze_panics_on_partial :
    Curl.squeeze ⟨81, fun _ => 0, fun _ => 0⟩ [0, 0, 0, 0, 0, 0, 0] = none := by
  refine squeeze_loop_none ⟨81, fun _ => 0, fun _ => 0⟩ [0, 0, 0, 0, 0, 0, 0] ?_
  rw [squeezeLoop.eq_def]
  split
  · next x heq => simp at heq
  · next a out heq =>
    injection heq with h1 h2
    subst h1
    subst h2
    rw [if_neg (by decide)]

theorem utf8DecodeLossy_encodeChar (c : Nat) (hc : UnicodeScalar c) (bs : List Nat) :
    utf8DecodeLossy (utf8EncodeChar c ++ bs) = c :: utf8DecodeLossy bs := by
  obtain ⟨hlt, hsur⟩ := hc
  by_cases h1 : c ≤ 0x7F
  · have he : utf8EncodeChar c = [c] := by rw [utf8EncodeChar, if_pos h1]
    rw [he, List.cons_append, List.nil_append, utf8DecodeLossy.eq_def]
    simp only [h1, ite_true, if_true]
  · by_cases h2 : c ≤ 0x7FF
    · have he : utf8EncodeChar c = [0xC0 + c / 0x40, 0x80 + c % 0x40] := by
        rw [utf8EncodeChar, if_neg h1, if_pos h2]
      rw [he]
      simp only [List.cons_append, List.nil_append]
      have hn1 : ¬ (0xC0 + c / 0x40 ≤ 0x7F) := by omega
      have hp2 : 0xC2 ≤ 0xC0 + c / 0x40 ∧ 0xC0 + c / 0x40 ≤ 0xDF := by omega
      have hp3 : 0x80 ≤ 0x80 + c % 0x40 ∧ 0x80 + c % 0x40 ≤ 0xBF := by omega
      have hval : (0xC0 + c / 0x40 - 0xC0) * 0x40 + (0x80 + c % 0x40 - 0x80) = c := by omega
      rw [utf8DecodeLossy.eq_def]
      simp only [hn1, hp2, hp3, and_self, if_true, if_false, ite_true, ite_false,
        eq_self_iff_true, hval]
    · by_cases h3 : c ≤ 0xFFFF
      · have he : utf8EncodeChar c =
            [0xE0 + c / 0x1000, 0x80 + c / 0x40 % 0x40, 0x80 + c % 0x40] := by
          rw [utf8EncodeChar, if_neg h1, if_neg h2, if_pos h3]
        rw [he]
        simp only [List.cons_append, List.nil_append]
        have hn1 : ¬ (0xE0 + c / 0x1000 ≤ 0x7F) := by omega
        have hn2 : ¬ (0xC2 ≤ 0xE0 + c / 0x1000 ∧ 0xE0 + c / 0x1000 ≤ 0xDF) := by omega
        have hp3 : 0xE0 ≤ 0xE0 + c / 0x1000 ∧ 0xE0 + c / 0x1000 ≤ 0xEF := by omega
        have hs3 : utf8Second3 (0xE0 + c / 0x1000) (0x80 + c / 0x40 % 0x40) := by
          unfold utf8Second3
          omega
        have hp4 : 0x80 ≤ 0x80 + c % 0x40 ∧ 0x80 + c % 0x40 ≤ 0xBF := by omega
        have hval : (0xE0 + c / 0x1000 - 0xE0) * 0x1000 +
            (0x80 + c / 0x40 % 0x40 - 0x80) * 0x40 + (0x80 + c % 0x40 - 0x80) = c := by omega
        rw [utf8DecodeLossy.eq_def]
        simp only [hn1, hn2, hp3, hs3, hp4, and_self, if_true, if_false, ite_true, ite_false,
          eq_self_iff_true, hval]
      · have he : utf8EncodeChar c = [0xF0 + c / 0x40000, 0x80 + c / 0x1000 % 0x40,
            0x80 + c / 0x40 % 0x40, 0x80 + c % 0x40] := by
          rw [utf8EncodeChar, if_neg h1, if_neg h2, if_neg h3]
        rw [he]
        simp only [List.cons_append, List.nil_append]
        have hn1 : ¬ (0xF0 + c / 0x40000 ≤ 0x7F) := by omega
        have hn2 : ¬ (0xC2 ≤ 0xF0 + c / 0x40000 ∧ 0xF0 + c / 0x40000 ≤ 0xDF) := by omega
        have hn3 : ¬ (0xE0 ≤ 0xF0 + c / 0x40000 ∧ 0xF0 + c / 0x40000 ≤ 0xEF) := by omega
        have hp4 : 0xF0 ≤ 0xF0 + c / 0x40000 ∧ 0xF0 + c / 0x40000 ≤ 0xF4 := by omega
        have hs4 : utf8Second4 (0xF0 + c / 0x40000) (0x80 + c / 0x1000 % 0x40) := by
          unfold utf8Second4
          omega
        have hp5 : 0x80 ≤ 0x80 + c / 0x40 % 0x40 ∧ 0x80 + c / 0x40 % 0x40 ≤ 0xBF := by omega
        have hp6 : 0x80 ≤ 0x80 + c % 0x40 ∧ 0x80 + c % 0x40 ≤ 0xBF := by omega
        have hval : (0xF0 + c / 0x40000 - 0xF0) * 0x40000 +
            (0x80 + c / 0x1000 % 0x40 - 0x80) * 0x1000 +
            (0x80 + c / 0x40 % 0x40 - 0x80) * 0x40 + (0x80 + c % 0x40 - 0x80) = c := by omega
        rw [utf8DecodeLossy.eq_def]
        simp only [hn1, hn2, hn3, hp4, hs4, hp5, hp6, and_self, if_true, if_false, ite_true,
          ite_false, eq_self_iff_true, hval]

set_option maxRecDepth 8000 in
theorem utf8DecodeLossy_scalars : ∀ (l : List Nat), ∀ x ∈ utf8DecodeLossy l, UnicodeScalar x := by
  intro l
  induction l using utf8DecodeLossy.induct
  all_goals
    intro x hx
    rw [utf8DecodeLossy.eq_def] at hx
    simp only [*, and_self, if_true, if_false, ite_true, ite_false] at hx
    first
    | exact absurd hx (List.not_mem_nil x)
    | (rcases List.mem_cons.mp hx with h | h
       · subst h
         try simp only [utf8Second3, utf8Second4] at *
         exact ⟨by omega, by omega⟩
       · first
         | solve_by_elim
         | exact absurd h (List.not_mem_nil x))

theorem utf8Encode_valid (cs : List Nat) (h : ∀ c ∈ cs, UnicodeScalar c) :
    Utf8Valid (utf8Encode cs) := by
  induction cs with
  | nil => exact Utf8Valid.nil
  | cons c rest ih =>
    have hu : utf8Encode (c :: rest) = utf8EncodeChar c ++ utf8Encode rest := by
      simp [utf8Encode]
    rw [hu]
    exact Utf8Valid.cons c (utf8Encode rest) (h c (List.mem_cons_self c rest))
      (ih (fun x hx => h x (List.mem_cons_of_mem c hx)))

theorem utf8_roundtrip (r : List Nat) :
    utf8Encode (utf8DecodeLossy r) = r ↔ Utf8Valid r := by
  constructor
  · intro h
    rw [← h]
    exact utf8Encode_valid (utf8DecodeLossy r) (utf8DecodeLossy_scalars r)
  · intro h
    induction h with
    | nil => rfl
    | cons c bs hc hbs ih =>
      rw [utf8DecodeLossy_encodeChar c hc bs]
      have hu : utf8Encode (c :: utf8DecodeLossy bs) =
          utf8EncodeChar c ++ utf8Encode (utf8DecodeLossy bs) := by
        simp [utf8Encode]
      rw [hu, ih]

/-- C10: for the wasm storage adapter, reading a key right after writing a
record under it returns the original record exactly when the record is valid
UTF-8; an invalid record is lossily converted before storage, so its round trip
differs. -/
theorem storage_roundtrip (st : LocalStorage) (keyPfx key : String) (record : List Nat) :
    get_bytes (set_bytes st keyPfx key record) keyPfx key = some record ↔ Utf8Valid record := by
  unfold get_bytes set_bytes
  rw [if_pos rfl]
  simp only [Option.map_some', Option.some.injEq]
  exact utf8_roundtrip record

theorem storage_roundtrip_witness :
    get_bytes (set_bytes (fun _ => none) "wallets" "k" [0x41]) "wallets" "k" = some [0x41] :=
  (storage_roundtrip (fun _ => none) "wallets" "k" [0x41]).mpr
    (Utf8Valid.cons 0x41 [] (by decide) Utf8Valid.nil)
